import Mathlib

/-!
# Branch-your-LLM: verification of the conversation-tree client and engine

Shallow embedding of the Multiverse chat application (React/TypeScript
frontend plus the spec of its FastAPI tree backend) and proofs of the
frozen claims about it.

Sources embedded from the repository:
* `frontend/src/types.ts` — the `Node`, `Session`, `ChatStreamChunk`,
  `SiblingsResponse` data shapes (string `created_at` timestamps are
  modelled as natural numbers; JS `Date` comparison becomes `Nat` order).
* `frontend/src/api.ts` — the newline-delimited-JSON stream parsing loop
  shared by `streamChat`, `streamBranch` and `streamContinue` (chunks are
  modelled after text decoding, as lists of characters; `JSON.parse` is an
  abstract parameter).
* `frontend/src/hooks/useChat.ts` — `selectSession`, `deleteSession` and
  the token-accumulation loop of `sendMessage` / `regenerate`.
* `frontend/src/components/MessageBubble.tsx` — sibling navigation
  handlers, disabled-button conditions and the regenerate-action gate.
* `frontend/src/components/SplitView.tsx` — `handleSendBoth`, the Diverge
  Mode dual-stream launcher, modelled as a small-step interleaving
  relation over the two per-thread accumulator states.

The tree backend itself is not part of the repository snapshot; where a
claim depends on it, the definition is modelled from the spec and is
marked `Modelled from the spec:` in its doc comment.
-/

namespace Multiverse

/-- Node role, the closed variant `'user' | 'assistant' | 'system'` of
`frontend/src/types.ts`. -/
inductive Role where
  | user
  | assistant
  | system
deriving DecidableEq

/-- A conversation-tree node, from the `Node` interface of
`frontend/src/types.ts`.  `created_at` (an ISO timestamp string compared via
`new Date(...)` in the code) is modelled as a `Nat`. -/
structure Node where
  id : String
  session_id : String
  parent_id : Option String
  role : Role
  content : String
  created_at : Nat
  model : Option String
  is_active : Bool
deriving DecidableEq

/-- A chat session, from the `Session` interface of `frontend/src/types.ts`. -/
structure Session where
  id : String
  name : String
  created_at : Nat
  updated_at : Nat
deriving DecidableEq

/-- One streamed event, from the `ChatStreamChunk` interface of
`frontend/src/types.ts`: a token, the owning node id, the terminal flag
`done`, the terminal `full_content`, and the distinct failure flag `error`. -/
structure ChatStreamChunk where
  token : String
  node_id : String
  user_node_id : Option String
  done : Bool
  full_content : Option String
  error : Option Bool
deriving DecidableEq

/-- The `/node/id/siblings` response shape, from the `SiblingsResponse`
interface of `frontend/src/types.ts`.  The numeric fields are modelled as
integers (JS numbers received from the server). -/
structure SiblingsResponse where
  siblings : List Node
  current_index : Int
  total : Int
deriving DecidableEq

/-! ## Token accumulation (`useChat.ts` `sendMessage`/`regenerate`,
`SplitView.tsx` stream loops) -/

/-- One step of the client streaming loop:
`if (!chunk.done) fullContent += chunk.token` — identical in
`sendMessage`, `regenerate` (useChat.ts) and both Diverge Mode streams
(SplitView.tsx). -/
def stepChunk (acc : String) (c : ChatStreamChunk) : String :=
  if c.done then acc else acc ++ c.token

/-- Content accumulated by the client over a whole stream of chunks,
starting from `let fullContent = ''`. -/
def accumulateContent (chunks : List ChatStreamChunk) : String :=
  chunks.foldl stepChunk ""

/-- Modelled from the spec: the shape of a successful backend completion
stream (the backend orchestrator is not in the repository snapshot).  "a
final event signals completion and carries the full sealed content"; all
earlier events are non-terminal token events.  The `error` flag of the
terminal event is deliberately unconstrained: failure is a distinct field
of the same terminal event, not a different stream shape. -/
def WellFormedStream (chunks : List ChatStreamChunk) : Prop :=
  ∃ body term, chunks = body ++ [term] ∧ term.done = true ∧
    (∀ c ∈ body, c.done = false) ∧
    term.full_content = some (String.join (body.map (·.token)))

lemma foldl_strAppend (l : List String) :
    ∀ a : String, l.foldl (· ++ ·) a = a ++ l.foldl (· ++ ·) "" := by
  induction l with
  | nil => intro a; simp
  | cons s rest ih =>
    intro a
    simp only [List.foldl_cons]
    rw [ih (a ++ s), ih ("" ++ s)]
    simp [String.append_assoc]

lemma join_cons (s : String) (l : List String) :
    String.join (s :: l) = s ++ String.join l := by
  simp only [String.join, List.foldl_cons]
  rw [foldl_strAppend]
  simp

lemma foldl_stepChunk_append (chunks : List ChatStreamChunk) :
    ∀ acc : String, chunks.foldl stepChunk acc =
      acc ++ String.join ((chunks.filter (fun c => !c.done)).map (·.token)) := by
  induction chunks with
  | nil => intro acc; simp [String.join]
  | cons c rest ih =>
    intro acc
    by_cases h : c.done
    · simp [stepChunk, h, ih]
    · simp only [List.foldl_cons, stepChunk, if_neg h, ih, List.filter_cons,
        Bool.not_eq_true', h]
      simp only [if_pos trivial, List.map_cons, join_cons, String.append_assoc]
      simp [h, String.append_assoc]

/-- `accumulateContent` is the concatenation, in order, of the tokens of the
non-terminal chunks. -/
lemma accumulateContent_eq (chunks : List ChatStreamChunk) :
    accumulateContent chunks =
      String.join ((chunks.filter (fun c => !c.done)).map (·.token)) := by
  have h := foldl_stepChunk_append chunks ""
  simpa [accumulateContent] using h

/-- C4: for every completion stream, the content accumulated by the client
(`fullContent` in `sendMessage`) equals the concatenation, in arrival
order, of the `token` fields of all non-terminal events (`done = false`);
and on a well-formed stream the terminal event carries exactly that full
content (failure being a distinct field of the terminal chunk, never a
truncation of the token sequence). -/
theorem client_accumulation_matches_stream :
    (∀ chunks : List ChatStreamChunk,
       accumulateContent chunks =
         String.join ((chunks.filter (fun c => !c.done)).map (·.token))) ∧
    (∀ chunks : List ChatStreamChunk, WellFormedStream chunks →
       ∃ term, chunks.getLast? = some term ∧ term.done = true ∧
         term.full_content = some (accumulateContent chunks)) := by
  refine ⟨accumulateContent_eq, ?_⟩
  rintro chunks ⟨body, term, rfl, hdone, hbody, hfull⟩
  refine ⟨term, List.getLast?_concat body, hdone, ?_⟩
  rw [hfull, accumulateContent_eq]
  have hfilter : (body ++ [term]).filter (fun c => !c.done) = body := by
    rw [List.filter_append]
    have h1 : body.filter (fun c => !c.done) = body :=
      List.filter_eq_self.mpr (by intro a ha; simp [hbody a ha])
    have h2 : [term].filter (fun c => !c.done) = [] := by simp [hdone]
    rw [h1, h2, List.append_nil]
  rw [hfilter]

/-- A concrete three-chunk stream used to witness C4. -/
def demoStream : List ChatStreamChunk :=
  [⟨"Hey", "n1", none, false, none, none⟩,
   ⟨" you", "n1", none, false, none, none⟩,
   ⟨"", "n1", none, true, some "Hey you", none⟩]

/-- C4 witness: a concrete three-chunk stream. -/
theorem client_accumulation_matches_stream_witness :
    ∃ term, demoStream.getLast? = some term ∧ term.done = true ∧
      term.full_content = some (accumulateContent demoStream) :=
  client_accumulation_matches_stream.2 demoStream
    ⟨[⟨"Hey", "n1", none, false, none, none⟩,
      ⟨" you", "n1", none, false, none, none⟩],
     ⟨"", "n1", none, true, some "Hey you", none⟩,
     rfl, rfl, by decide, by decide⟩

/-! ## Sibling navigation (`MessageBubble.tsx`) -/

/-- `handlePrevSibling` from MessageBubble.tsx: navigate to
`siblings.siblings[siblings.current_index - 1]` only when
`siblings && siblings.current_index > 0`.  The returned value is the
navigation target passed to `onNavigate` (`none` = no navigation). -/
def handlePrevSibling (siblings : Option SiblingsResponse) : Option Node :=
  match siblings with
  | none => none
  | some s =>
    if s.current_index > 0 then s.siblings.get? (s.current_index - 1).toNat
    else none

/-- `handleNextSibling` from MessageBubble.tsx: navigate to
`siblings.siblings[siblings.current_index + 1]` only when
`siblings && siblings.current_index < siblings.total - 1`. -/
def handleNextSibling (siblings : Option SiblingsResponse) : Option Node :=
  match siblings with
  | none => none
  | some s =>
    if s.current_index < s.total - 1 then
      s.siblings.get? (s.current_index + 1).toNat
    else none

/-- The previous-branch button's `disabled={siblings.current_index === 0}`
condition of MessageBubble.tsx. -/
def prevDisabled (s : SiblingsResponse) : Bool :=
  decide (s.current_index = 0)

/-- The next-branch button's
`disabled={siblings.current_index === siblings.total - 1}` condition of
MessageBubble.tsx. -/
def nextDisabled (s : SiblingsResponse) : Bool :=
  decide (s.current_index = s.total - 1)

/-- C9: for every siblings response with `0 ≤ current_index < total` and
`total` equal to the siblings-list length, the previous/next handlers never
index outside the array — previous navigates (to index `current_index - 1`)
exactly when `current_index > 0`, next exactly when
`current_index < total - 1`, and the buttons are disabled at the
boundaries. -/
theorem sibling_navigation_safe (s : SiblingsResponse)
    (h0 : 0 ≤ s.current_index) (h1 : s.current_index < s.total)
    (h2 : s.total = s.siblings.length) :
    ((0 < s.current_index →
        ∃ n, handlePrevSibling (some s) = some n ∧
          s.siblings.get? (s.current_index - 1).toNat = some n) ∧
     (s.current_index ≤ 0 → handlePrevSibling (some s) = none)) ∧
    ((s.current_index < s.total - 1 →
        ∃ n, handleNextSibling (some s) = some n ∧
          s.siblings.get? (s.current_index + 1).toNat = some n) ∧
     (s.total - 1 ≤ s.current_index → handleNextSibling (some s) = none)) ∧
    (prevDisabled s = true ↔ s.current_index = 0) ∧
    (nextDisabled s = true ↔ s.current_index = s.total - 1) := by
  refine ⟨⟨?_, ?_⟩, ⟨?_, ?_⟩, ?_, ?_⟩
  · intro hpos
    have hlt : (s.current_index - 1).toNat < s.siblings.length := by omega
    exact ⟨s.siblings.get ⟨_, hlt⟩,
      by simp [handlePrevSibling, hpos, List.get?_eq_get hlt],
      List.get?_eq_get hlt⟩
  · intro hle
    have : ¬ (0 < s.current_index) := by omega
    simp [handlePrevSibling, this]
  · intro hlt
    have hlt' : (s.current_index + 1).toNat < s.siblings.length := by omega
    exact ⟨s.siblings.get ⟨_, hlt'⟩,
      by simp [handleNextSibling, hlt, List.get?_eq_get hlt'],
      List.get?_eq_get hlt'⟩
  · intro hge
    have : ¬ (s.current_index < s.total - 1) := by omega
    simp [handleNextSibling, this]
  · simp [prevDisabled]
  · simp [nextDisabled]

/-- A concrete two-sibling response used to witness C9. -/
def demoSiblings : SiblingsResponse :=
  ⟨[⟨"a1", "s", some "u1", Role.assistant, "Hi", 1, some "m", false⟩,
    ⟨"a2", "s", some "u1", Role.assistant, "Hey", 2, some "m", false⟩], 1, 2⟩

/-- C9 witness: at index 1 of 2 the previous handler navigates in bounds and
the next button is disabled. -/
theorem sibling_navigation_safe_witness :
    ((0 < demoSiblings.current_index →
        ∃ n, handlePrevSibling (some demoSiblings) = some n ∧
          demoSiblings.siblings.get?
            (demoSiblings.current_index - 1).toNat = some n) ∧
     (demoSiblings.current_index ≤ 0 →
        handlePrevSibling (some demoSiblings) = none)) ∧
    ((demoSiblings.current_index < demoSiblings.total - 1 →
        ∃ n, handleNextSibling (some demoSiblings) = some n ∧
          demoSiblings.siblings.get?
            (demoSiblings.current_index + 1).toNat = some n) ∧
     (demoSiblings.total - 1 ≤ demoSiblings.current_index →
        handleNextSibling (some demoSiblings) = none)) ∧
    (prevDisabled demoSiblings = true ↔ demoSiblings.current_index = 0) ∧
    (nextDisabled demoSiblings = true ↔
      demoSiblings.current_index = demoSiblings.total - 1) :=
  sibling_navigation_safe demoSiblings (by decide) (by decide) (by decide)

/-! ## Client-side session state (`useChat.ts`) -/

/-- The client state managed by `useChat` that `deleteSession` touches. -/
structure ClientState where
  sessions : List Session
  currentSession : Option Session
  nodes : List Node
  currentPath : List Node
  activeNodeId : Option String
deriving DecidableEq

/-- `deleteSession` from useChat.ts: after the server delete, clear
`currentSession`, `nodes`, `currentPath` and `activeNodeId` when
`currentSession?.id === sessionId`, then reload the session list
(`newSessions` is the list returned by the reload). -/
def deleteSessionUpdate (st : ClientState) (sessionId : String)
    (newSessions : List Session) : ClientState :=
  let cleared :=
    if st.currentSession.map (·.id) = some sessionId then
      { st with currentSession := none, nodes := [], currentPath := [],
                activeNodeId := none }
    else st
  { cleared with sessions := newSessions }

/-- C10: `deleteSession` clears the current session, node list, current path
and active node id exactly when the deleted id is the current session's id;
deleting a different session leaves those four pieces of state unchanged and
only reloads the session list. -/
theorem deleteSession_frame (st : ClientState) (sid : String)
    (ns : List Session) :
    (st.currentSession.map (·.id) = some sid →
       deleteSessionUpdate st sid ns = ⟨ns, none, [], [], none⟩) ∧
    (st.currentSession.map (·.id) ≠ some sid →
       (deleteSessionUpdate st sid ns).currentSession = st.currentSession ∧
       (deleteSessionUpdate st sid ns).nodes = st.nodes ∧
       (deleteSessionUpdate st sid ns).currentPath = st.currentPath ∧
       (deleteSessionUpdate st sid ns).activeNodeId = st.activeNodeId ∧
       (deleteSessionUpdate st sid ns).sessions = ns) := by
  constructor
  · intro h; simp [deleteSessionUpdate, h]
  · intro h; simp [deleteSessionUpdate, h]

/-- A concrete client state used to witness C10. -/
def demoClientState : ClientState :=
  ⟨[⟨"s1", "Chat 1", 1, 1⟩, ⟨"s2", "Chat 2", 2, 2⟩],
   some ⟨"s1", "Chat 1", 1, 1⟩,
   [⟨"u1", "s1", none, Role.user, "Hello", 1, none, true⟩],
   [⟨"u1", "s1", none, Role.user, "Hello", 1, none, true⟩],
   some "u1"⟩

/-- C10 witness: deleting a non-current session leaves the view state
untouched. -/
theorem deleteSession_frame_witness :
    (demoClientState.currentSession.map (·.id) ≠ some "s2") ∧
    ((deleteSessionUpdate demoClientState "s2" []).currentSession
       = demoClientState.currentSession ∧
     (deleteSessionUpdate demoClientState "s2" []).nodes
       = demoClientState.nodes ∧
     (deleteSessionUpdate demoClientState "s2" []).currentPath
       = demoClientState.currentPath ∧
     (deleteSessionUpdate demoClientState "s2" []).activeNodeId
       = demoClientState.activeNodeId ∧
     (deleteSessionUpdate demoClientState "s2" []).sessions = []) :=
  ⟨by decide, (deleteSession_frame demoClientState "s2" []).2 (by decide)⟩

/-! ## Node lookup and the regenerate gate (C6) -/

/-- Look a node up by id in a session's node list (the store's `getNode`,
modelled over the listed nodes). -/
def findNode (nodes : List Node) (id : String) : Option Node :=
  nodes.find? (fun m => m.id == id)

/-- Errors of the branch (regenerate) operation, from §7 of the spec. -/
inductive BranchError where
  | notFound
  | invalidRole
deriving DecidableEq

/-- Modelled from the spec: the backend branch (regenerate) operation
(`PUT /node/id/branch`), which is not in the repository snapshot.  "given an
existing assistant node, locates its parent, and creates a brand-new sibling
assistant node under that same parent"; "Fails with `InvalidRole` if
`node_id` refers to a user node"; `NotFound`/`InvalidRole` are rejected
synchronously before any mutation (an error result carries no new store).
`newId`/`now` stand for the generated identity and timestamp. -/
def branchOp (nodes : List Node) (id : String) (modelName : String)
    (newId : String) (now : Nat) : Except BranchError (List Node × Node) :=
  match findNode nodes id with
  | none => .error .notFound
  | some n =>
    if n.role = Role.user then .error .invalidRole
    else
      let child : Node :=
        ⟨newId, n.session_id, n.parent_id, Role.assistant, "", now,
         some modelName, false⟩
      .ok (nodes ++ [child], child)

/-- The regenerate-action gate of MessageBubble.tsx: the action block is
rendered under `!isUser && !isStreaming`, where
`isUser = node.role === 'user'`. -/
def showsRegenerate (n : Node) (isStreaming : Bool) : Bool :=
  !(decide (n.role = Role.user)) && !isStreaming

/-- A concrete system-role node (the TS `Node` type admits role 'system'). -/
def demoSystemNode : Node :=
  ⟨"sys1", "s1", none, Role.system, "You are helpful", 0, none, false⟩

/-- C6 counterexample: the client's regenerate gate checks `role !== 'user'`,
not `role === 'assistant'`, so a non-streaming system node is offered the
regenerate action even though it is not an assistant message. -/
theorem regenerate_offered_on_system_node :
    showsRegenerate demoSystemNode false = true ∧
    demoSystemNode.role ≠ Role.assistant := by decide

/-- C6 (amended): regeneration invoked on a user node fails with
`InvalidRole` before any mutation, and the client offers the regenerate
action exactly on non-user messages (assistant and system alike) that are
not currently streaming. -/
theorem regenerate_user_rejected_and_gate :
    (∀ (nodes : List Node) (id modelName newId : String) (now : Nat)
       (n : Node), findNode nodes id = some n → n.role = Role.user →
       branchOp nodes id modelName newId now = .error .invalidRole) ∧
    (∀ (n : Node) (s : Bool),
       showsRegenerate n s = true ↔ (n.role ≠ Role.user ∧ s = false)) := by
  constructor
  · intro nodes id modelName newId now n hfind hrole
    simp [branchOp, hfind, hrole]
  · intro n s
    cases s <;> simp [showsRegenerate]

/-- A concrete user node used to witness C6. -/
def demoUserNode : Node :=
  ⟨"u1", "s1", none, Role.user, "Hello", 1, none, true⟩

/-- C6 witness: branching the concrete user node is rejected with
`InvalidRole`. -/
theorem regenerate_user_rejected_witness :
    branchOp [demoUserNode] "u1" "m" "a9" 9 = .error .invalidRole :=
  regenerate_user_rejected_and_gate.1 [demoUserNode] "u1" "m" "a9" 9
    demoUserNode (by decide) (by decide)

/-! ## Tree Navigator: `pathTo` (C2)

The backend Tree Navigator is not in the repository snapshot (the frontend
only calls `GET /node/id/path` via `getNodePath` in api.ts), so the walk is
modelled from the spec. -/

/-- Result of the `pathTo` walk: the root-first path, `NotFound` for an
unknown starting node, or `CorruptTree` for a defensively detected cycle or
dangling parent. -/
inductive PathResult where
  | ok (path : List Node)
  | notFound
  | corruptTree
deriving DecidableEq

/-- Modelled from the spec: one fuelled step of the `pathTo` walk ("walk
parent pointers from `node_id` to the root"), keeping the already-visited
ids so that "a cycle ... must be defensively detected and reported as
`CorruptTree` rather than looping forever", and reporting a dangling parent
reference (a later lookup that fails) as `CorruptTree` as well (§7). -/
def pathToAux (nodes : List Node) :
    Nat → String → List String → List Node → PathResult
  | 0, _, _, _ => .corruptTree
  | fuel + 1, cur, visited, acc =>
    if cur ∈ visited then .corruptTree
    else
      match findNode nodes cur with
      | none => if acc.isEmpty then .notFound else .corruptTree
      | some n =>
        match n.parent_id with
        | none => .ok (n :: acc)
        | some p => pathToAux nodes fuel p (cur :: visited) (n :: acc)

/-- Modelled from the spec: `pathTo(node_id)`, returning "the ordered
sequence root → node_id (root first)".  The fuel `nodes.length + 1` bounds
the walk by the store size; the visited set catches cycles first. -/
def pathTo (nodes : List Node) (id : String) : PathResult :=
  pathToAux nodes (nodes.length + 1) id [] []

lemma eq_of_id_eq {nodes : List Node} (hNodup : (nodes.map (·.id)).Nodup)
    {a b : Node} (ha : a ∈ nodes) (hb : b ∈ nodes) (h : a.id = b.id) :
    a = b :=
  List.inj_on_of_nodup_map hNodup ha hb h

lemma findNode_eq_self {nodes : List Node}
    (hNodup : (nodes.map (·.id)).Nodup) {n : Node} (hn : n ∈ nodes) :
    findNode nodes n.id = some n := by
  induction nodes with
  | nil => cases hn
  | cons x xs ih =>
    rw [findNode, List.find?_cons]
    by_cases hx : x.id = n.id
    · have : x = n :=
        eq_of_id_eq hNodup (List.mem_cons_self x xs) hn hx
      simp [hx, this]
    · have hne : (x.id == n.id) = false := by simp [hx]
      rw [hne]
      have hn' : n ∈ xs := by
        rcases List.mem_cons.mp hn with rfl | h
        · exact absurd rfl hx
        · exact h
      exact ih ((List.nodup_cons.mp (by simpa using hNodup)).2) hn'

lemma pathToAux_ok (nodes : List Node) (d : String → Nat)
    (hNodup : (nodes.map (·.id)).Nodup)
    (hParent : ∀ c ∈ nodes, ∀ p, c.parent_id = some p →
       ∃ m ∈ nodes, m.id = p)
    (hMeasure : ∀ c ∈ nodes, ∀ p, c.parent_id = some p → d p < d c.id) :
    ∀ (fuel : Nat) (n : Node) (visited : List String) (acc : List Node),
      n ∈ nodes → d n.id < fuel → (∀ v ∈ visited, d n.id < d v) →
      ∃ chain,
        pathToAux nodes fuel n.id visited acc = .ok (chain ++ acc) ∧
        (∃ r t, chain = r :: t ∧ r.parent_id = none) ∧
        chain.getLast? = some n ∧
        List.Chain' (fun a b => b.parent_id = some a.id) chain ∧
        (∀ c ∈ chain, c ∈ nodes ∧ d c.id ≤ d n.id) ∧
        (chain.map (·.id)).Nodup := by
  intro fuel
  induction fuel with
  | zero => intro n _ _ _ h _; omega
  | succ fs ih =>
    intro n visited acc hn hfuel hvis
    have hnotmem : n.id ∉ visited := fun h => lt_irrefl _ (hvis _ h)
    cases hpar : n.parent_id with
    | none =>
      refine ⟨[n], ?_, ⟨n, [], rfl, hpar⟩, rfl, List.chain'_singleton n,
        ?_, by simp⟩
      · simp only [pathToAux, if_neg hnotmem, findNode_eq_self hNodup hn,
          hpar]
        rfl
      · intro c hc
        rw [List.mem_singleton] at hc
        subst hc
        exact ⟨hn, le_refl _⟩
    | some p =>
      obtain ⟨m, hm, hmid⟩ := hParent n hn p hpar
      have hdp : d p < d n.id := hMeasure n hn p hpar
      have hdm : d m.id < fs := by rw [hmid]; omega
      have hvis' : ∀ v ∈ n.id :: visited, d m.id < d v := by
        intro v hv
        rcases List.mem_cons.mp hv with rfl | hv'
        · rw [hmid]; exact hdp
        · rw [hmid]; exact lt_trans hdp (hvis _ hv')
      obtain ⟨chainP, heq, ⟨r, t, hrt, hroot⟩, hlast, hchain, hmem, hnd⟩ :=
        ih m (n.id :: visited) (n :: acc) hm hdm hvis'
      rw [hmid] at heq
      refine ⟨chainP ++ [n], ?_, ?_, List.getLast?_concat chainP, ?_, ?_, ?_⟩
      · simp only [pathToAux, if_neg hnotmem, findNode_eq_self hNodup hn,
          hpar, heq, List.append_assoc, List.singleton_append]
      · exact ⟨r, t ++ [n], by rw [hrt]; simp, hroot⟩
      · refine List.Chain'.append hchain (List.chain'_singleton n) ?_
        intro x hx y hy
        rw [hlast, Option.mem_def, Option.some.injEq] at hx
        rw [List.head?_cons, Option.mem_def, Option.some.injEq] at hy
        subst hx; subst hy
        rw [hpar, hmid]
      · intro c hc
        rcases List.mem_append.mp hc with hc' | hc'
        · obtain ⟨hcn, hcd⟩ := hmem c hc'
          exact ⟨hcn, le_of_lt (lt_of_le_of_lt (hmid ▸ hcd) hdp)⟩
        · rw [List.mem_singleton] at hc'
          subst hc'
          exact ⟨hn, le_refl _⟩
      · rw [List.map_append]
        rw [List.nodup_append]
        refine ⟨hnd, by simp, ?_⟩
        intro x hx hx'
        simp only [List.map_cons, List.map_nil, List.mem_singleton] at hx'
        subst hx'
        obtain ⟨c, hc, hcid⟩ := List.mem_map.mp hx
        obtain ⟨_, hcd⟩ := hmem c hc
        rw [hcid, hmid] at hcd
        omega

/-- Modelled from the spec: one parent-pointer step of the walk (resolve the
current id, move to its parent). -/
def parentStep (nodes : List Node) (s : String) : Option String :=
  (findNode nodes s).bind (·.parent_id)

/-- Modelled from the spec: `k` parent-pointer steps of the walk. -/
def parentIter (nodes : List Node) : Nat → String → Option String
  | 0, s => some s
  | k + 1, s => (parentStep nodes s).bind (parentIter nodes k)

/-- A walk that never reaches a root or a missing node — the situation in
which a naive parent-pointer walk would loop forever (a reachable cycle). -/
def InfiniteWalk (nodes : List Node) (s : String) : Prop :=
  ∀ k, (parentIter nodes k s).isSome

lemma infiniteWalk_step {nodes : List Node} {s : String}
    (h : InfiniteWalk nodes s) :
    ∃ p, parentStep nodes s = some p ∧ InfiniteWalk nodes p := by
  cases hps : parentStep nodes s with
  | none =>
    have h1 := h 1
    rw [parentIter, hps, Option.none_bind] at h1
    cases h1
  | some p =>
    refine ⟨p, rfl, ?_⟩
    intro k
    have hk := h (k + 1)
    rwa [parentIter, hps, Option.some_bind] at hk

lemma pathToAux_infinite (nodes : List Node) :
    ∀ (fuel : Nat) (s : String) (visited : List String) (acc : List Node),
      InfiniteWalk nodes s →
      pathToAux nodes fuel s visited acc = .corruptTree := by
  intro fuel
  induction fuel with
  | zero => intro s visited acc _; rfl
  | succ fs ih =>
    intro s visited acc h
    by_cases hv : s ∈ visited
    · simp only [pathToAux, if_pos hv]
    · obtain ⟨p, hps, hwp⟩ := infiniteWalk_step h
      obtain ⟨n, hfind, hparp⟩ := Option.bind_eq_some.mp hps
      simp only [pathToAux, if_neg hv, hfind, hparp]
      exact ih p (s :: visited) (n :: acc) hwp

/-- C2: on a well-formed store (distinct ids, resolvable parents, and a
depth measure certifying acyclicity), `pathTo(n)` returns the ordered
root-first parent chain ending at `n` with no repeated node id; and on a
walk that would never terminate (a reachable cycle), `pathTo` reports
`CorruptTree` instead of looping forever. -/
theorem pathTo_correct :
    (∀ (nodes : List Node) (d : String → Nat),
       (nodes.map (·.id)).Nodup →
       (∀ c ∈ nodes, ∀ p, c.parent_id = some p →
          ∃ m ∈ nodes, m.id = p) →
       (∀ c ∈ nodes, ∀ p, c.parent_id = some p → d p < d c.id) →
       (∀ m ∈ nodes, d m.id ≤ nodes.length) →
       ∀ n ∈ nodes, ∃ chain,
         pathTo nodes n.id = .ok chain ∧
         (∃ r t, chain = r :: t ∧ r.parent_id = none) ∧
         chain.getLast? = some n ∧
         List.Chain' (fun a b => b.parent_id = some a.id) chain ∧
         (chain.map (·.id)).Nodup) ∧
    (∀ (nodes : List Node) (s : String),
       InfiniteWalk nodes s → pathTo nodes s = .corruptTree) := by
  constructor
  · intro nodes d hNodup hParent hMeasure hBound n hn
    obtain ⟨chain, heq, hroot, hlast, hchain, _, hnd⟩ :=
      pathToAux_ok nodes d hNodup hParent hMeasure (nodes.length + 1) n [] []
        hn (by have := hBound n hn; omega) (by intro v hv; cases hv)
    rw [List.append_nil] at heq
    exact ⟨chain, heq, hroot, hlast, hchain, hnd⟩
  · intro nodes s h
    exact pathToAux_infinite nodes (nodes.length + 1) s [] [] h

/-- Concrete root node for the C2 witness. -/
def demoRoot : Node := ⟨"u1", "s1", none, Role.user, "Hello", 1, none, false⟩

/-- Concrete child node for the C2 witness. -/
def demoChild : Node :=
  ⟨"a1", "s1", some "u1", Role.assistant, "Hi", 2, some "m", true⟩

/-- Concrete two-node store for the C2 witness. -/
def demoNodes : List Node := [demoRoot, demoChild]

/-- Depth measure for `demoNodes`. -/
def demoDepth (s : String) : Nat := if s = "u1" then 0 else 1

/-- A self-parenting node giving a cyclic store for the C2 witness. -/
def loopNodes : List Node :=
  [⟨"x", "s1", some "x", Role.user, "", 0, none, false⟩]

/-- C2 witness: the concrete two-node store yields the root-first path to
the child, and the one-node cycle is reported as `CorruptTree`. -/
theorem pathTo_correct_witness :
    (∃ chain, pathTo demoNodes demoChild.id = .ok chain ∧
       (∃ r t, chain = r :: t ∧ r.parent_id = none) ∧
       chain.getLast? = some demoChild ∧
       List.Chain' (fun a b => b.parent_id = some a.id) chain ∧
       (chain.map (·.id)).Nodup) ∧
    pathTo loopNodes "x" = .corruptTree := by
  constructor
  · refine pathTo_correct.1 demoNodes demoDepth (by decide) ?_ ?_ (by decide)
      demoChild (by decide)
    · rintro c hc p hp
      simp only [demoNodes, List.mem_cons, List.not_mem_nil, or_false] at hc
      rcases hc with rfl | rfl
      · simp [demoRoot] at hp
      · simp only [demoChild, Option.some.injEq] at hp
        subst hp
        exact ⟨demoRoot, by simp [demoNodes], rfl⟩
    · rintro c hc p hp
      simp only [demoNodes, List.mem_cons, List.not_mem_nil, or_false] at hc
      rcases hc with rfl | rfl
      · simp [demoRoot] at hp
      · simp only [demoChild, Option.some.injEq] at hp
        subst hp
        decide
  · refine pathTo_correct.2 loopNodes "x" ?_
    intro k
    induction k with
    | zero => rfl
    | succ k ih =>
      have hstep : parentStep loopNodes "x" = some "x" := by decide
      rw [parentIter, hstep, Option.some_bind]
      exact ih

/-! ## Session selection and the default leaf (C3, C7) -/

/-- The leaf computation of `selectSession` in useChat.ts:
`parentIds = new Set(tree.nodes.map(n => n.parent_id).filter(Boolean))` and
`leafNodes = tree.nodes.filter(n => !parentIds.has(n.id))` (a leaf is a node
whose id is not the parent id of any node; `filter(Boolean)` drops both
null and empty-string parent ids). -/
def leafNodes (nodes : List Node) : List Node :=
  let parentIds := (nodes.filterMap (·.parent_id)).filter (fun p => p ≠ "")
  nodes.filter (fun n => !(decide (n.id ∈ parentIds)))

/-- The reduce step of `selectSession`:
`(a, b) => new Date(a.created_at) > new Date(b.created_at) ? a : b`. -/
def pickLatest (a b : Node) : Node :=
  if a.created_at > b.created_at then a else b

/-- `leafNodes.reduce(pickLatest)` of useChat.ts — the most recent leaf
(`none` on an empty list, where the code would not call reduce at all). -/
def latestLeaf : List Node → Option Node
  | [] => none
  | x :: xs => some (xs.foldl pickLatest x)

/-- Modelled from the spec: `defaultLeaf(session_id)` — "among all leaves
... pick the one with the maximum `created_at`"; "Fails with `EmptyTree` if
the session has no nodes".  (The backend is not in the snapshot; the client
computes the same value locally in `selectSession`.) -/
inductive DefaultLeafResult where
  | emptyTree
  | leaf (n : Node)
deriving DecidableEq

/-- Modelled from the spec: the default-leaf query over a session's nodes. -/
def defaultLeaf (nodes : List Node) : DefaultLeafResult :=
  match latestLeaf (leafNodes nodes) with
  | none => .emptyTree
  | some n => .leaf n

/-- The path-related view state set by `updatePath` / `selectSession`. -/
structure PathView where
  currentPath : List Node
  activeNodeId : Option String
deriving DecidableEq

/-- The path returned by the `/node/id/path` endpoint that `updatePath`
stores into `currentPath` (the endpoint is the spec-modelled `pathTo`;
on the non-`ok` results the endpoint has no path to return). -/
def pathOf (nodes : List Node) (id : String) : List Node :=
  match pathTo nodes id with
  | .ok p => p
  | _ => []

/-- `selectSession` from useChat.ts, restricted to the path view it
computes: on a non-empty node list, navigate to the most recent leaf (when
one exists; otherwise the previous view is left untouched); on an empty
list, clear the path and the active node id. -/
def selectSessionView (prev : PathView) (nodes : List Node) : PathView :=
  if nodes.length > 0 then
    match latestLeaf (leafNodes nodes) with
    | some leaf => ⟨pathOf nodes leaf.id, some leaf.id⟩
    | none => prev
  else ⟨[], none⟩

lemma foldl_pickLatest_spec (xs : List Node) :
    ∀ a : Node, xs.foldl pickLatest a ∈ a :: xs ∧
      ∀ y ∈ a :: xs, y.created_at ≤ (xs.foldl pickLatest a).created_at := by
  induction xs with
  | nil => intro a; exact ⟨List.mem_singleton.mpr rfl, by simp⟩
  | cons x xs ih =>
    intro a
    obtain ⟨hmem, hmax⟩ := ih (pickLatest a x)
    have hpick : pickLatest a x = a ∨ pickLatest a x = x := by
      unfold pickLatest; split <;> simp
    constructor
    · rw [List.foldl_cons]
      rcases List.mem_cons.mp hmem with h | h
      · rw [h]
        rcases hpick with hp | hp <;> rw [hp] <;> simp
      · exact List.mem_cons.mpr (Or.inr (List.mem_cons.mpr (Or.inr h)))
    · intro y hy
      rw [List.foldl_cons]
      have hax : a.created_at ≤ (pickLatest a x).created_at ∧
          x.created_at ≤ (pickLatest a x).created_at := by
        unfold pickLatest; split <;> omega
      have hstep := hmax (pickLatest a x) (List.mem_cons_self _ _)
      rcases List.mem_cons.mp hy with rfl | hy'
      · exact le_trans hax.1 hstep
      · rcases List.mem_cons.mp hy' with rfl | hy''
        · exact le_trans hax.2 hstep
        · exact hmax y (List.mem_cons.mpr (Or.inr hy''))

lemma exists_max_key (key : Node → Nat) :
    ∀ (l : List Node), l ≠ [] → ∃ m ∈ l, ∀ k ∈ l, key k ≤ key m := by
  intro l
  induction l with
  | nil => intro h; exact absurd rfl h
  | cons x xs ih =>
    intro _
    by_cases hxs : xs = []
    · subst hxs
      exact ⟨x, List.mem_singleton.mpr rfl, by simp⟩
    · obtain ⟨m, hm, hmax⟩ := ih hxs
      by_cases hxm : key x ≤ key m
      · refine ⟨m, List.mem_cons.mpr (Or.inr hm), ?_⟩
        intro k hk
        rcases List.mem_cons.mp hk with rfl | hk'
        · exact hxm
        · exact hmax k hk'
      · refine ⟨x, List.mem_cons_self _ _, ?_⟩
        intro k hk
        rcases List.mem_cons.mp hk with rfl | hk'
        · exact le_refl _
        · exact le_trans (hmax k hk') (by omega)

lemma mem_leafNodes_iff {nodes : List Node} (hId : ∀ n ∈ nodes, n.id ≠ "")
    {m : Node} :
    m ∈ leafNodes nodes ↔
      m ∈ nodes ∧ ∀ c ∈ nodes, c.parent_id ≠ some m.id := by
  unfold leafNodes
  rw [List.mem_filter]
  simp only [Bool.not_eq_true', decide_eq_false_iff_not, List.mem_filter,
    List.mem_filterMap, decide_eq_true_eq]
  constructor
  · rintro ⟨hm, hnp⟩
    refine ⟨hm, ?_⟩
    intro c hc hcp
    exact hnp ⟨⟨c, hc, hcp⟩, hId m hm⟩
  · rintro ⟨hm, hnp⟩
    refine ⟨hm, ?_⟩
    rintro ⟨⟨c, hc, hcp⟩, _⟩
    exact hnp c hc hcp

/-- C3: for every non-empty, well-formed session (nonempty node ids and a
depth measure certifying acyclicity), selecting the session restores the
view at a leaf — a node whose id is the parent id of no node — of maximum
`created_at` among all leaves, and sets the current path to that leaf's
path and the active node id to that leaf. -/
theorem selectSession_restores_latest_leaf (prev : PathView)
    (nodes : List Node) (d : String → Nat)
    (hne : nodes ≠ [])
    (hId : ∀ n ∈ nodes, n.id ≠ "")
    (hMeasure : ∀ c ∈ nodes, ∀ p, c.parent_id = some p → d p < d c.id) :
    ∃ leaf, latestLeaf (leafNodes nodes) = some leaf ∧
      leaf ∈ nodes ∧
      (∀ c ∈ nodes, c.parent_id ≠ some leaf.id) ∧
      (∀ m ∈ nodes, (∀ c ∈ nodes, c.parent_id ≠ some m.id) →
         m.created_at ≤ leaf.created_at) ∧
      selectSessionView prev nodes = ⟨pathOf nodes leaf.id, some leaf.id⟩ := by
  have hleaf_ne : leafNodes nodes ≠ [] := by
    obtain ⟨m, hm, hmax⟩ := exists_max_key (fun n => d n.id) nodes hne
    have hmleaf : m ∈ leafNodes nodes := by
      rw [mem_leafNodes_iff hId]
      refine ⟨hm, ?_⟩
      intro c hc hcp
      have := hMeasure c hc m.id hcp
      have := hmax c hc
      omega
    intro h
    rw [h] at hmleaf
    cases hmleaf
  cases hleaves : leafNodes nodes with
  | nil => exact absurd hleaves hleaf_ne
  | cons x xs =>
    obtain ⟨hmem, hmax⟩ := foldl_pickLatest_spec xs x
    have hmem' : xs.foldl pickLatest x ∈ leafNodes nodes := by
      rw [hleaves]; exact hmem
    have hleafchar := (mem_leafNodes_iff hId).mp hmem'
    refine ⟨xs.foldl pickLatest x, rfl, hleafchar.1, hleafchar.2, ?_, ?_⟩
    · intro m hm hmleaf
      have : m ∈ leafNodes nodes := by
        rw [mem_leafNodes_iff hId]; exact ⟨hm, hmleaf⟩
      rw [hleaves] at this
      exact hmax m this
    · unfold selectSessionView
      rw [if_pos (by cases nodes with
        | nil => exact absurd rfl hne
        | cons y ys => simp), hleaves]
      rfl

/-- A second concrete session (root with two leaves) used to witness C3. -/
def demoNodes3 : List Node :=
  [⟨"u1", "s1", none, Role.user, "Hello", 1, none, false⟩,
   ⟨"a1", "s1", some "u1", Role.assistant, "Hi", 2, some "m", false⟩,
   ⟨"a2", "s1", some "u1", Role.assistant, "Hey", 3, some "m", true⟩]

/-- C3 witness: on the concrete three-node session the restored view is the
most recent leaf `a2`. -/
theorem selectSession_restores_latest_leaf_witness :
    ∃ leaf, latestLeaf (leafNodes demoNodes3) = some leaf ∧
      leaf ∈ demoNodes3 ∧
      (∀ c ∈ demoNodes3, c.parent_id ≠ some leaf.id) ∧
      (∀ m ∈ demoNodes3, (∀ c ∈ demoNodes3, c.parent_id ≠ some m.id) →
         m.created_at ≤ leaf.created_at) ∧
      selectSessionView ⟨[], none⟩ demoNodes3
        = ⟨pathOf demoNodes3 leaf.id, some leaf.id⟩ :=
  selectSession_restores_latest_leaf ⟨[], none⟩ demoNodes3 demoDepth
    (by decide) (by decide)
    (by
      rintro c hc p hp
      simp only [demoNodes3, List.mem_cons, List.not_mem_nil, or_false] at hc
      rcases hc with rfl | rfl | rfl
      · simp at hp
      · simp only [Option.some.injEq] at hp
        subst hp
        decide
      · simp only [Option.some.injEq] at hp
        subst hp
        decide)

/-- C7: on a session with no nodes the default-leaf query reports
`EmptyTree`, and the client treats it as the absence of an active path:
`selectSession` sets the current path to the empty sequence and the active
node id to null, raising no error. -/
theorem empty_session_clears_view :
    defaultLeaf ([] : List Node) = .emptyTree ∧
    ∀ prev : PathView, selectSessionView prev [] = ⟨[], none⟩ :=
  ⟨rfl, fun _ => rfl⟩

/-! ## Tree Navigator: `siblingsOf` (C5)

The backend Navigator is not in the snapshot (the frontend calls
`GET /node/id/siblings` via `getNodeSiblings` in api.ts), so the query is
modelled from the spec. -/

/-- The sibling ordering contract: `created_at` ascending. -/
def nodeLE (a b : Node) : Prop := a.created_at ≤ b.created_at

instance : DecidableRel nodeLE := fun a b => Nat.decLe a.created_at b.created_at

instance : IsTotal Node nodeLE := ⟨fun a b => Nat.le_total a.created_at b.created_at⟩

instance : IsTrans Node nodeLE := ⟨fun _ _ _ => Nat.le_trans⟩

/-- Modelled from the spec: `siblingsOf(node_id)` — "returns the
ordered-by-`created_at` sibling set plus the zero-based index of `node_id`
within it and the total count", siblings being "all nodes sharing that
node's `parent_id`"; `none` models the `NotFound` failure. -/
def siblingsOf (nodes : List Node) (id : String) : Option SiblingsResponse :=
  match findNode nodes id with
  | none => none
  | some n =>
    let sibs := List.insertionSort nodeLE
      (nodes.filter (fun m => m.parent_id == n.parent_id))
    some ⟨sibs, (sibs.findIdx (fun m => m.id == id) : Nat), (sibs.length : Nat)⟩

/-- `hasSiblings = siblings && siblings.total > 1` of MessageBubble.tsx —
the client's test for whether branch navigation is meaningful. -/
def hasSiblings (s : Option SiblingsResponse) : Bool :=
  match s with
  | none => false
  | some r => decide (r.total > 1)

lemma get_findIdx_of_mem {p : Node → Bool} :
    ∀ {l : List Node}, (∃ x ∈ l, p x = true) →
      ∃ y, l.get? (l.findIdx p) = some y ∧ p y = true := by
  intro l
  induction l with
  | nil => rintro ⟨x, hx, _⟩; cases hx
  | cons a l ih =>
    rintro ⟨x, hx, hpx⟩
    by_cases hpa : p a = true
    · exact ⟨a, by simp [List.findIdx_cons, hpa], hpa⟩
    · have hx' : x ∈ l := by
        rcases List.mem_cons.mp hx with rfl | h
        · exact absurd hpx hpa
        · exact h
      obtain ⟨y, hy, hpy⟩ := ih ⟨x, hx', hpx⟩
      refine ⟨y, ?_, hpy⟩
      simp only [List.findIdx_cons, Bool.not_eq_true] at hpa ⊢
      rw [hpa]
      simpa using hy

/-- C5: for every existing node (in a store with distinct ids),
`siblingsOf` returns exactly the nodes sharing its parent id, ordered by
`created_at` ascending, with the zero-based index of the queried node and
the total count; a node with no siblings yields the single-element set with
index 0 and total 1; and the client's branch-navigation test is exactly
`total > 1`. -/
theorem siblingsOf_spec (nodes : List Node)
    (hNodup : (nodes.map (·.id)).Nodup) (n : Node) (hn : n ∈ nodes) :
    ∃ resp, siblingsOf nodes n.id = some resp ∧
      (∀ m, m ∈ resp.siblings ↔ m ∈ nodes ∧ m.parent_id = n.parent_id) ∧
      List.Sorted nodeLE resp.siblings ∧
      resp.total = resp.siblings.length ∧
      (∃ k : Nat, resp.current_index = k ∧ resp.siblings.get? k = some n) ∧
      ((∀ m ∈ nodes, m.parent_id = n.parent_id → m = n) →
         resp.siblings = [n] ∧ resp.current_index = 0 ∧ resp.total = 1) ∧
      (hasSiblings (siblingsOf nodes n.id) = true ↔ 1 < resp.total) := by
  have hfind : findNode nodes n.id = some n := findNode_eq_self hNodup hn
  have hsibs_eq : siblingsOf nodes n.id =
      some ⟨List.insertionSort nodeLE
              (nodes.filter (fun m => m.parent_id == n.parent_id)),
            ((List.insertionSort nodeLE
              (nodes.filter (fun m => m.parent_id == n.parent_id))).findIdx
                (fun m => m.id == n.id) : Nat),
            ((List.insertionSort nodeLE
              (nodes.filter (fun m => m.parent_id == n.parent_id))).length
                : Nat)⟩ := by
    rw [siblingsOf, hfind]
  set sibs := List.insertionSort nodeLE
    (nodes.filter (fun m => m.parent_id == n.parent_id)) with hsibs
  have hperm : sibs.Perm
      (nodes.filter (fun m => m.parent_id == n.parent_id)) :=
    List.perm_insertionSort nodeLE _
  have hmemiff : ∀ m, m ∈ sibs ↔ m ∈ nodes ∧ m.parent_id = n.parent_id := by
    intro m
    rw [hperm.mem_iff, List.mem_filter]
    simp
  have hnsibs : n ∈ sibs := (hmemiff n).mpr ⟨hn, rfl⟩
  refine ⟨_, hsibs_eq, hmemiff, List.sorted_insertionSort nodeLE _, rfl,
    ?_, ?_, ?_⟩
  · obtain ⟨y, hy, hpy⟩ :=
      get_findIdx_of_mem (p := fun m => m.id == n.id)
        ⟨n, hnsibs, by simp⟩
    have hpy' : y.id = n.id := by simpa using hpy
    have hyn : y = n := by
      have hysibs : y ∈ sibs := List.get?_mem hy
      exact eq_of_id_eq hNodup ((hmemiff y).mp hysibs).1 hn hpy'
    exact ⟨sibs.findIdx (fun m => m.id == n.id), rfl, hyn ▸ hy⟩
  · intro huniq
    have hall : ∀ m ∈ sibs, m = n := by
      intro m hm
      obtain ⟨hmn, hmp⟩ := (hmemiff m).mp hm
      exact huniq m hmn hmp
    have hnd : sibs.Nodup :=
      (hperm.nodup_iff).mpr ((hNodup.of_map).filter _)
    have hsingle : sibs = [n] := by
      cases hsibs' : sibs with
      | nil => rw [hsibs'] at hnsibs; cases hnsibs
      | cons a t =>
        have ha : a = n := hall a (by rw [hsibs']; exact List.mem_cons_self _ _)
        have ht : t = [] := by
          cases ht' : t with
          | nil => rfl
          | cons b u =>
            have hb : b = n := hall b (by
              rw [hsibs', ht']
              exact List.mem_cons.mpr (Or.inr (List.mem_cons_self _ _)))
            rw [hsibs', ht'] at hnd
            have := (List.nodup_cons.mp hnd).1
            rw [ha, hb] at this
            exact absurd (List.mem_cons_self _ _) this
        rw [ha, ht]
    refine ⟨hsingle, ?_, ?_⟩
    · simp [hsingle, List.findIdx_cons]
    · simp [hsingle]
  · rw [hsibs_eq, hasSiblings]
    simp

/-- C5 witness: in the three-node demo session the assistant node `a1` has
sibling set `{a1, a2}`, index 0, total 2, and the client test reports
branch navigation as meaningful. -/
theorem siblingsOf_spec_witness :
    ∃ resp, siblingsOf demoNodes3
        (⟨"a1", "s1", some "u1", Role.assistant, "Hi", 2, some "m",
          false⟩ : Node).id = some resp ∧
      (∀ m, m ∈ resp.siblings ↔ m ∈ demoNodes3 ∧
         m.parent_id = (⟨"a1", "s1", some "u1", Role.assistant, "Hi", 2,
           some "m", false⟩ : Node).parent_id) ∧
      List.Sorted nodeLE resp.siblings ∧
      resp.total = resp.siblings.length ∧
      (∃ k : Nat, resp.current_index = k ∧
         resp.siblings.get? k = some ⟨"a1", "s1", some "u1", Role.assistant,
           "Hi", 2, some "m", false⟩) ∧
      ((∀ m ∈ demoNodes3, m.parent_id = (⟨"a1", "s1", some "u1",
           Role.assistant, "Hi", 2, some "m", false⟩ : Node).parent_id →
          m = ⟨"a1", "s1", some "u1", Role.assistant, "Hi", 2, some "m",
            false⟩) →
         resp.siblings = [⟨"a1", "s1", some "u1", Role.assistant, "Hi", 2,
           some "m", false⟩] ∧
         resp.current_index = 0 ∧ resp.total = 1) ∧
      (hasSiblings (siblingsOf demoNodes3 (⟨"a1", "s1", some "u1",
           Role.assistant, "Hi", 2, some "m", false⟩ : Node).id) = true ↔
        1 < resp.total) :=
  siblingsOf_spec demoNodes3 (by decide)
    ⟨"a1", "s1", some "u1", Role.assistant, "Hi", 2, some "m", false⟩
    (by decide)

/-! ## NDJSON stream parsing (C8)

The read loop of `streamChat` in api.ts (identical in `streamBranch` and
`streamContinue`): decoded text chunks are appended to a buffer, the buffer
is split on `'\n'`, the final fragment is kept as the new buffer, and each
complete non-blank line is `JSON.parse`d, parse errors being silently
ignored.  Chunks are modelled post-`TextDecoder` as lists of characters and
`JSON.parse` as an abstract partial function. -/

/-- Prepend a character onto the first segment of a split result. -/
def consHead (c : Char) : List (List Char) → List (List Char)
  | [] => [[c]]
  | l :: ls => (c :: l) :: ls

/-- JS `buffer.split('\n')` at character level: a separator opens a new
empty segment, any other character extends the current first segment. -/
def splitCharsOn (sep : Char) : List Char → List (List Char)
  | [] => [[]]
  | c :: cs =>
    if c = sep then [] :: splitCharsOn sep cs
    else consHead c (splitCharsOn sep cs)

/-- The guarded parse of one complete line:
`if (line.trim()) { try { yield JSON.parse(line) } catch { } }` — the line
is parsed only when it has a non-whitespace character; a malformed line
yields nothing. -/
def guardParse {J : Type} (parse : List Char → Option J)
    (line : List Char) : Option J :=
  if line.any (fun c => !c.isWhitespace) then parse line else none

/-- One iteration of the read loop:
`buffer += decode(value); lines = buffer.split('\n');
buffer = lines.pop() || ''; for (line of lines) ...yield...`. -/
def processChunk {J : Type} (parse : List Char → Option J) :
    List Char × List J → List Char → List Char × List J
  | (buffer, out), chunk =>
    let lines := splitCharsOn '\n' (buffer ++ chunk)
    ((lines.getLast?).getD [],
     out ++ (lines.dropLast).foldl
       (fun acc line =>
         match guardParse parse line with
         | some v => acc ++ [v]
         | none => acc) [])

/-- The values yielded by the whole stream loop over the arriving chunks,
starting from the empty buffer; the final buffer (a trailing fragment
without a newline) is discarded when the reader reports `done`. -/
def streamChatYields {J : Type} (parse : List Char → Option J)
    (chunks : List (List Char)) : List J :=
  (chunks.foldl (processChunk parse) ([], [])).2

/-- Splice of two split results across a chunk boundary: the last segment of
the left run glues onto the first segment of the right run. -/
def glueSplits : List (List Char) → List (List Char) → List (List Char)
  | [a], b :: bs => (a ++ b) :: bs
  | a :: as, bs => a :: glueSplits as bs
  | [], bs => bs

lemma consHead_ne_nil (c : Char) (ls : List (List Char)) :
    consHead c ls ≠ [] := by
  cases ls <;> simp [consHead]

lemma splitCharsOn_ne_nil (sep : Char) :
    ∀ l : List Char, splitCharsOn sep l ≠ [] := by
  intro l
  cases l with
  | nil => simp [splitCharsOn]
  | cons c cs =>
    rw [splitCharsOn]
    by_cases h : c = sep
    · simp [h]
    · rw [if_neg h]
      exact consHead_ne_nil c _

lemma glueSplits_cons_of_ne (a : List Char) (as bs : List (List Char))
    (h : as ≠ []) : glueSplits (a :: as) bs = a :: glueSplits as bs := by
  cases as with
  | nil => exact absurd rfl h
  | cons x xs => cases bs <;> rfl

lemma glueSplits_append_left (A : List (List Char)) (a : List Char)
    (B : List (List Char)) :
    glueSplits (A ++ [a]) B = A ++ glueSplits [a] B := by
  induction A with
  | nil => rfl
  | cons x xs ih =>
    rw [List.cons_append,
      glueSplits_cons_of_ne x (xs ++ [a]) B (by simp), ih, List.cons_append]

lemma consHead_glue (c : Char) (S B : List (List Char)) (hS : S ≠ [])
    (hB : B ≠ []) :
    consHead c (glueSplits S B) = glueSplits (consHead c S) B := by
  cases S with
  | nil => exact absurd rfl hS
  | cons l0 ls =>
    cases B with
    | nil => exact absurd rfl hB
    | cons h t =>
      cases ls with
      | nil => rfl
      | cons m ms => rfl

lemma splitCharsOn_append (sep : Char) :
    ∀ a b : List Char,
      splitCharsOn sep (a ++ b) =
        glueSplits (splitCharsOn sep a) (splitCharsOn sep b) := by
  intro a
  induction a with
  | nil =>
    intro b
    rw [List.nil_append]
    cases hb : splitCharsOn sep b with
    | nil => exact absurd hb (splitCharsOn_ne_nil sep b)
    | cons h t => rfl
  | cons c cs ih =>
    intro b
    rw [List.cons_append, splitCharsOn, splitCharsOn, ih b]
    by_cases hc : c = sep
    · rw [if_pos hc, if_pos hc,
        glueSplits_cons_of_ne [] (splitCharsOn sep cs) (splitCharsOn sep b)
          (splitCharsOn_ne_nil sep cs)]
    · rw [if_neg hc, if_neg hc]
      exact consHead_glue c _ _ (splitCharsOn_ne_nil sep cs)
        (splitCharsOn_ne_nil sep b)

lemma sep_not_mem_of_mem_splitCharsOn (sep : Char) :
    ∀ (l : List Char) (t : List Char), t ∈ splitCharsOn sep l → sep ∉ t := by
  intro l
  induction l with
  | nil =>
    intro t ht
    simp only [splitCharsOn, List.mem_singleton] at ht
    subst ht
    simp
  | cons c cs ih =>
    intro t ht
    rw [splitCharsOn] at ht
    by_cases hc : c = sep
    · rw [if_pos hc] at ht
      rcases List.mem_cons.mp ht with rfl | ht'
      · simp
      · exact ih t ht'
    · rw [if_neg hc] at ht
      cases hS : splitCharsOn sep cs with
      | nil => exact absurd hS (splitCharsOn_ne_nil sep cs)
      | cons l0 ls =>
        rw [hS, show consHead c (l0 :: ls) = (c :: l0) :: ls from rfl] at ht
        rcases List.mem_cons.mp ht with rfl | ht'
        · intro hmem
          rcases List.mem_cons.mp hmem with heq | hmem'
          · exact hc heq.symm
          · exact ih l0 (by rw [hS]; exact List.mem_cons_self l0 ls) hmem'
        · exact ih t (by rw [hS]; exact List.mem_cons.mpr (Or.inr ht'))

lemma splitCharsOn_of_not_mem (sep : Char) :
    ∀ l : List Char, sep ∉ l → splitCharsOn sep l = [l] := by
  intro l
  induction l with
  | nil => intro _; rfl
  | cons c cs ih =>
    intro h
    have hc : ¬ c = sep := by
      intro hc
      subst hc
      exact h (List.mem_cons_self _ _)
    have hcs : sep ∉ cs := fun hm => h (List.mem_cons.mpr (Or.inr hm))
    rw [splitCharsOn, if_neg hc, ih hcs]
    rfl

lemma foldl_yield {J : Type} (g : List Char → Option J) :
    ∀ (lines : List (List Char)) (acc : List J),
      lines.foldl (fun out line =>
        match g line with
        | some v => out ++ [v]
        | none => out) acc = acc ++ lines.filterMap g := by
  intro lines
  induction lines with
  | nil => intro acc; simp
  | cons l ls ih =>
    intro acc
    rw [List.foldl_cons, List.filterMap_cons]
    cases hg : g l with
    | none => rw [ih]
    | some v => rw [ih, List.append_assoc, List.singleton_append]

/-- The state (buffer, yielded values) of the read loop after the text `x`
has arrived. -/
def loopState {J : Type} (parse : List Char → Option J) (x : List Char) :
    List Char × List J :=
  (((splitCharsOn '\n' x).getLast?).getD [],
   ((splitCharsOn '\n' x).dropLast).filterMap (guardParse parse))

lemma processChunk_step {J : Type} (parse : List Char → Option J)
    (x c : List Char) :
    processChunk parse
      (((splitCharsOn '\n' x).getLast?).getD [],
       ((splitCharsOn '\n' x).dropLast).filterMap (guardParse parse)) c =
      (((splitCharsOn '\n' (x ++ c)).getLast?).getD [],
       ((splitCharsOn '\n' (x ++ c)).dropLast).filterMap
         (guardParse parse)) := by
  have hxne := splitCharsOn_ne_nil '\n' x
  have hLlast : (splitCharsOn '\n' x).getLast? =
      some (((splitCharsOn '\n' x).getLast?).getD []) := by
    rw [List.getLast?_eq_getLast_of_ne_nil hxne]
    rfl
  set L := ((splitCharsOn '\n' x).getLast?).getD [] with hL
  have hLmem : L ∈ splitCharsOn '\n' x := by
    obtain ⟨hne, heq⟩ :=
      List.mem_getLast?_eq_getLast (Option.mem_def.mpr hLlast)
    rw [heq]
    exact List.getLast_mem hne
  have hLnosep : ('\n' : Char) ∉ L :=
    sep_not_mem_of_mem_splitCharsOn '\n' x L hLmem
  have hsplitx : (splitCharsOn '\n' x).dropLast ++ [L] = splitCharsOn '\n' x :=
    List.dropLast_append_getLast? L (Option.mem_def.mpr hLlast)
  cases hB : splitCharsOn '\n' c with
  | nil => exact absurd hB (splitCharsOn_ne_nil '\n' c)
  | cons h t =>
    have hsplitLc : splitCharsOn '\n' (L ++ c) = (L ++ h) :: t := by
      rw [splitCharsOn_append '\n' L c, splitCharsOn_of_not_mem '\n' L hLnosep,
        hB]
      rfl
    have hsplitxc : splitCharsOn '\n' (x ++ c) =
        (splitCharsOn '\n' x).dropLast ++ ((L ++ h) :: t) := by
      rw [splitCharsOn_append '\n' x c, hB]
      conv_lhs => rw [← hsplitx]
      rw [glueSplits_append_left]
      rfl
    simp only [processChunk, hsplitLc, hsplitxc]
    rw [Prod.mk.injEq]
    constructor
    · rw [List.getLast?_append_of_ne_nil _ (by simp)]
    · rw [List.dropLast_append_of_ne_nil _ (by simp),
        List.filterMap_append, foldl_yield, List.nil_append]

lemma foldl_processChunk {J : Type} (parse : List Char → Option J) :
    ∀ (chunks : List (List Char)) (x : List Char),
      chunks.foldl (processChunk parse) (loopState parse x)
        = loopState parse (x ++ chunks.flatten) := by
  intro chunks
  induction chunks with
  | nil => intro x; simp
  | cons c cs ih =>
    intro x
    rw [List.foldl_cons,
      show processChunk parse (loopState parse x) c = loopState parse (x ++ c)
        from processChunk_step parse x c,
      ih, List.flatten_cons, List.append_assoc]

/-- C8: the values yielded by the chat stream read loop are exactly the
parses of the complete newline-terminated lines of the received text, in
arrival order — a malformed line is dropped (its `filterMap` contribution is
empty) without stopping later lines from being yielded, and the trailing
fragment after the last newline is never yielded (`dropLast`).  The
hypothesis states that the parser rejects blank lines, as `JSON.parse` does,
making the code's `line.trim()` guard invisible. -/
theorem streamChat_parses_complete_lines (J : Type)
    (parse : List Char → Option J)
    (hws : ∀ line : List Char,
       line.all (fun c => c.isWhitespace) = true → parse line = none)
    (chunks : List (List Char)) :
    streamChatYields parse chunks =
      ((splitCharsOn '\n' chunks.flatten).dropLast).filterMap parse := by
  have hg : ∀ line, guardParse parse line = parse line := by
    intro line
    unfold guardParse
    by_cases h : line.any (fun c => !c.isWhitespace) = true
    · rw [if_pos h]
    · rw [if_neg (by simpa using h)]
      refine (hws line ?_).symm
      rw [List.all_eq_true]
      intro c hc
      by_contra hc'
      exact h (List.any_eq_true.mpr ⟨c, hc, by simp [hc']⟩)
  have hinit : (([], []) : List Char × List J) = loopState parse [] := by
    simp [loopState, splitCharsOn]
  rw [streamChatYields, hinit, foldl_processChunk, loopState, List.nil_append,
    funext hg]

/-- The concrete line parser for the C8 witness: accepts exactly the line
`42`. -/
def demoParse (line : List Char) : Option Nat :=
  if line = ['4', '2'] then some 42 else none

/-- Concrete decoded chunks for the C8 witness: the text `42\noops\n42`
split unevenly across three reads; `oops` is malformed and the final `42`
lacks a terminating newline. -/
def demoChunks : List (List Char) :=
  [['4'], ['2', '\n', 'o', 'o', 'p', 's', '\n', '4'], ['2']]

/-- C8 witness: only the first, complete, well-formed line is yielded. -/
theorem streamChat_parses_complete_lines_witness :
    streamChatYields demoParse demoChunks = [42] :=
  (streamChat_parses_complete_lines Nat demoParse
    (by
      intro line h
      by_cases heq : line = ['4', '2']
      · subst heq
        exact absurd h (by decide)
      · simp [demoParse, heq])
    demoChunks).trans (by decide)

/-! ## Diverge Mode (C1)

`handleSendBoth` in SplitView.tsx snapshots the parent id once, then runs
`streamLeft()` and `streamRight()` under `Promise.all`; each closure owns
its `fullContent` accumulator and its own thread state, and an exception in
one closure only triggers that closure's `finally`.  The concurrent
execution is modelled as a small-step interleaving relation. -/

/-- The `streamChat` request body (api.ts `POST /chat/completions`). -/
structure ChatRequest where
  session_id : String
  content : String
  parent_id : Option String
  model : String
deriving DecidableEq

/-- `const parentId = parentNode?.id || null` of `handleSendBoth`,
evaluated once before either stream starts (JS `||` also maps an empty id
to null). -/
def divergeParentId (parentNode : Option Node) : Option String :=
  match parentNode with
  | none => none
  | some n => if n.id = "" then none else some n.id

/-- The two `streamChat` request bodies issued by `handleSendBoth`; both
read the single snapshotted `parentId`. -/
def divergeRequests (sessionId leftInput rightInput modelName : String)
    (parentNode : Option Node) : ChatRequest × ChatRequest :=
  let parentId := divergeParentId parentNode
  (⟨sessionId, leftInput, parentId, modelName⟩,
   ⟨sessionId, rightInput, parentId, modelName⟩)

/-- Interleaved execution state of the two Diverge Mode streams: each
thread's accumulated content (`fullContent`), its not-yet-delivered chunks,
and whether it has ended, with or without failure. -/
structure DivergeState where
  leftAcc : String
  rightAcc : String
  leftRest : List ChatStreamChunk
  rightRest : List ChatStreamChunk
  leftDone : Bool
  rightDone : Bool
  leftFailed : Bool
  rightFailed : Bool
deriving DecidableEq

/-- Initial state of `handleSendBoth`: both accumulators empty, both
streams pending with their full chunk sequences. -/
def divergeInit (l r : List ChatStreamChunk) : DivergeState :=
  ⟨"", "", l, r, false, false, false, false⟩

/-- One interleaving step of `handleSendBoth`: consume the next chunk of
one live stream (updating only that stream's accumulator, by the shared
`if (!chunk.done)` fold), end a stream normally when its chunks are
exhausted, or fail a stream at any point (the exception path into
`finally`), discarding its remaining chunks.  No constructor reads or
writes the other stream's fields. -/
inductive DivergeStep : DivergeState → DivergeState → Prop where
  | leftChunk (s : DivergeState) (c : ChatStreamChunk)
      (rest : List ChatStreamChunk) :
      s.leftRest = c :: rest → s.leftDone = false →
      DivergeStep s { s with leftAcc := stepChunk s.leftAcc c,
                             leftRest := rest }
  | leftFinish (s : DivergeState) :
      s.leftRest = [] → s.leftDone = false →
      DivergeStep s { s with leftDone := true }
  | leftFail (s : DivergeState) :
      s.leftDone = false →
      DivergeStep s { s with leftDone := true, leftFailed := true,
                             leftRest := [] }
  | rightChunk (s : DivergeState) (c : ChatStreamChunk)
      (rest : List ChatStreamChunk) :
      s.rightRest = c :: rest → s.rightDone = false →
      DivergeStep s { s with rightAcc := stepChunk s.rightAcc c,
                             rightRest := rest }
  | rightFinish (s : DivergeState) :
      s.rightRest = [] → s.rightDone = false →
      DivergeStep s { s with rightDone := true }
  | rightFail (s : DivergeState) :
      s.rightDone = false →
      DivergeStep s { s with rightDone := true, rightFailed := true,
                             rightRest := [] }

/-- Execution invariant: a live stream's final content is determined by its
own chunk list alone; an ended stream either failed or accumulated exactly
its own chunks' tokens. -/
def DivergeInv (l r : List ChatStreamChunk) (s : DivergeState) : Prop :=
  (s.leftDone = false →
     s.leftRest.foldl stepChunk s.leftAcc = accumulateContent l) ∧
  (s.leftDone = true →
     s.leftFailed = true ∨ s.leftAcc = accumulateContent l) ∧
  (s.rightDone = false →
     s.rightRest.foldl stepChunk s.rightAcc = accumulateContent r) ∧
  (s.rightDone = true →
     s.rightFailed = true ∨ s.rightAcc = accumulateContent r)

lemma divergeInv_init (l r : List ChatStreamChunk) :
    DivergeInv l r (divergeInit l r) := by
  exact ⟨fun _ => rfl, fun h => Bool.noConfusion h, fun _ => rfl,
    fun h => Bool.noConfusion h⟩

lemma divergeInv_step {l r : List ChatStreamChunk}
    {s s' : DivergeState} (hstep : DivergeStep s s')
    (hinv : DivergeInv l r s) : DivergeInv l r s' := by
  obtain ⟨h1, h2, h3, h4⟩ := hinv
  cases hstep with
  | leftChunk c rest hrest hdone =>
    refine ⟨fun _ => ?_, fun h => ?_, h3, h4⟩
    · show rest.foldl stepChunk (stepChunk s.leftAcc c) = accumulateContent l
      have := h1 hdone
      rw [hrest, List.foldl_cons] at this
      exact this
    · have hfalse : s.leftDone = true := h
      rw [hdone] at hfalse
      cases hfalse
  | leftFinish hrest hdone =>
    refine ⟨fun h => Bool.noConfusion h, fun _ => ?_, h3, h4⟩
    have := h1 hdone
    rw [hrest, List.foldl_nil] at this
    exact Or.inr this
  | leftFail hdone =>
    exact ⟨fun h => Bool.noConfusion h, fun _ => Or.inl rfl, h3, h4⟩
  | rightChunk c rest hrest hdone =>
    refine ⟨h1, h2, fun _ => ?_, fun h => ?_⟩
    · show rest.foldl stepChunk (stepChunk s.rightAcc c) = accumulateContent r
      have := h3 hdone
      rw [hrest, List.foldl_cons] at this
      exact this
    · have hfalse : s.rightDone = true := h
      rw [hdone] at hfalse
      cases hfalse
  | rightFinish hrest hdone =>
    refine ⟨h1, h2, fun h => Bool.noConfusion h, fun _ => ?_⟩
    have := h3 hdone
    rw [hrest, List.foldl_nil] at this
    exact Or.inr this
  | rightFail hdone =>
    exact ⟨h1, h2, fun h => Bool.noConfusion h, fun _ => Or.inl rfl⟩

lemma divergeInv_reach {l r : List ChatStreamChunk} {s : DivergeState}
    (h : Relation.ReflTransGen DivergeStep (divergeInit l r) s) :
    DivergeInv l r s := by
  induction h with
  | refl => exact divergeInv_init l r
  | tail _ hstep ih => exact divergeInv_step hstep ih

/-- C1: in Diverge Mode the two completions share only the parent id
snapshotted once before either stream starts (both requests carry it); a
stream that is not done always has an enabled step of its own, whatever the
other stream's state (no blocking); and over every interleaved execution, a
stream that ended without failing accumulated exactly the tokens of its own
chunk sequence — independent of the other stream's chunks, schedule, or
failure. -/
theorem diverge_streams_independent :
    (∀ (sessionId leftInput rightInput modelName : String)
       (parentNode : Option Node),
       (divergeRequests sessionId leftInput rightInput modelName
          parentNode).1.parent_id = divergeParentId parentNode ∧
       (divergeRequests sessionId leftInput rightInput modelName
          parentNode).2.parent_id = divergeParentId parentNode) ∧
    (∀ s : DivergeState,
       (s.leftDone = false → ∃ s', DivergeStep s s') ∧
       (s.rightDone = false → ∃ s', DivergeStep s s')) ∧
    (∀ (l r : List ChatStreamChunk) (s : DivergeState),
       Relation.ReflTransGen DivergeStep (divergeInit l r) s →
       (s.leftDone = true →
          s.leftFailed = true ∨ s.leftAcc = accumulateContent l) ∧
       (s.rightDone = true →
          s.rightFailed = true ∨ s.rightAcc = accumulateContent r)) := by
  refine ⟨fun _ _ _ _ _ => ⟨rfl, rfl⟩, fun s => ⟨?_, ?_⟩, fun l r s h => ?_⟩
  · intro hld
    cases hrest : s.leftRest with
    | nil => exact ⟨_, DivergeStep.leftFinish s hrest hld⟩
    | cons c rest => exact ⟨_, DivergeStep.leftChunk s c rest hrest hld⟩
  · intro hrd
    cases hrest : s.rightRest with
    | nil => exact ⟨_, DivergeStep.rightFinish s hrest hrd⟩
    | cons c rest => exact ⟨_, DivergeStep.rightChunk s c rest hrest hrd⟩
  · obtain ⟨_, h2, _, h4⟩ := divergeInv_reach h
    exact ⟨h2, h4⟩

/-- Left-stream chunks for the C1 witness. -/
def demoLeftChunks : List ChatStreamChunk :=
  [⟨"A", "nL", none, false, none, none⟩]

/-- Right-stream chunks for the C1 witness (the right stream will fail
before consuming them). -/
def demoRightChunks : List ChatStreamChunk :=
  [⟨"B", "nR", none, false, none, none⟩]

/-- Final state of the C1 witness execution: left completed normally with
content `A`, right failed mid-stream. -/
def demoFinalState : DivergeState :=
  ⟨"A", "", [], [], true, true, false, true⟩

/-- C1 witness: a concrete interleaving in which the left stream consumes
its chunk and finishes while the right stream fails; the theorem yields that
the left content is exactly its own stream's tokens, untouched by the
right-stream failure. -/
theorem diverge_streams_independent_witness :
    Relation.ReflTransGen DivergeStep
      (divergeInit demoLeftChunks demoRightChunks) demoFinalState ∧
    demoFinalState.rightFailed = true ∧
    (demoFinalState.leftFailed = true ∨
      demoFinalState.leftAcc = accumulateContent demoLeftChunks) := by
  have hexec : Relation.ReflTransGen DivergeStep
      (divergeInit demoLeftChunks demoRightChunks) demoFinalState := by
    refine Relation.ReflTransGen.head
      (show DivergeStep (divergeInit demoLeftChunks demoRightChunks)
        (⟨"A", "", [], demoRightChunks, false, false, false, false⟩ :
          DivergeState) from ?_)
      (Relation.ReflTransGen.head
        (show DivergeStep
          (⟨"A", "", [], demoRightChunks, false, false, false, false⟩ :
            DivergeState)
          (⟨"A", "", [], demoRightChunks, true, false, false, false⟩ :
            DivergeState) from ?_)
        (Relation.ReflTransGen.head
          (show DivergeStep
            (⟨"A", "", [], demoRightChunks, true, false, false, false⟩ :
              DivergeState) demoFinalState from ?_)
          Relation.ReflTransGen.refl))
    · exact DivergeStep.leftChunk _ ⟨"A", "nL", none, false, none, none⟩ []
        rfl rfl
    · exact DivergeStep.leftFinish _ rfl rfl
    · exact DivergeStep.rightFail _ rfl
  exact ⟨hexec, rfl,
    ((diverge_streams_independent.2.2 demoLeftChunks demoRightChunks
        demoFinalState hexec).1 rfl)⟩

end Multiverse
